import Mathlib

/-!
Verification of the Quizzer loading/normalization pipeline.

The Python source (src/app.py, src/src/loaders/json_loader.py,
src/src/loaders/csv_loader.py, src/src/loaders/manager.py) is shallowly
embedded below.  JSON-decoded values become the inductive type `Json`;
Python dicts become association lists (`Record`) with Python insertion
semantics (`setKey` replaces the value in place at an existing key and
appends at the end for a new key; `getKey` looks up the first occurrence,
which coincides with dict lookup since decoded dicts have unique keys).
Code that can raise a Python exception is embedded with an `Option`
result, `none` meaning the exception propagates.  String and character
operations are modelled at the ASCII level (the test data and all claims
are ASCII); JSON numbers are modelled as integers, which covers every
input the claims mention.
-/

/-- A JSON-decoded Python value: dict, list, str, int, bool or None. -/
inductive Json where
  | obj : List (String × Json) → Json
  | arr : List Json → Json
  | str : String → Json
  | num : Int → Json
  | bool : Bool → Json
  | null : Json

/-- A Python dict with string keys, in insertion order. -/
abbrev Record := List (String × Json)

/-- Python `d.get(k)` / `d[k]`: value at the first occurrence of the key. -/
def getKey (m : Record) (k : String) : Option Json :=
  match m with
  | [] => none
  | (k1, v) :: rest => if k1 = k then some v else getKey rest k

/-- Python `k in d`. -/
def hasKey (m : Record) (k : String) : Bool :=
  (getKey m k).isSome

/-- Python `d[k] = v`: replace in place if the key exists, else append. -/
def setKey (m : Record) (k : String) (v : Json) : Record :=
  match m with
  | [] => [(k, v)]
  | (k1, v1) :: rest => if k1 = k then (k, v) :: rest else (k1, v1) :: setKey rest k v

/-- Python truthiness of a JSON-decoded value. -/
def jtruthy : Json → Bool
  | .obj m => !m.isEmpty
  | .arr l => !l.isEmpty
  | .str s => !s.isEmpty
  | .num n => n != 0
  | .bool b => b
  | .null => false

/-- Truthiness of `d.get(k)` (a missing key reads as `None`, which is falsy). -/
def truthyGet (m : Record) (k : String) : Bool :=
  match getKey m k with
  | some v => jtruthy v
  | none => false

/-- ASCII uppercase Latin letter test, `A`-`Z` (codes 65-90). -/
def isUpperLatin (c : Char) : Bool :=
  65 ≤ c.toNat && c.toNat ≤ 90

/-- ASCII whitespace as stripped by Python `str.strip()`. -/
def isSpaceChar (c : Char) : Bool :=
  c.toNat = 32 || c.toNat = 9 || c.toNat = 10 || c.toNat = 13 || c.toNat = 11 || c.toNat = 12

/-- A regex word character (`\w`), ASCII: letters, digits, underscore. -/
def isWordChar (c : Char) : Bool :=
  isUpperLatin c || (97 ≤ c.toNat && c.toNat ≤ 122) || (48 ≤ c.toNat && c.toNat ≤ 57) || c.toNat = 95

/-- Python `str.upper()` on one ASCII character. -/
def pyUpperChar (c : Char) : Char :=
  if 97 ≤ c.toNat && c.toNat ≤ 122 then Char.ofNat (c.toNat - 32) else c

/-- Python `str.upper()`. -/
def pyUpper (s : String) : String :=
  String.mk (s.toList.map pyUpperChar)

/-- Drop whitespace from both ends of a character list. -/
def stripChars (l : List Char) : List Char :=
  ((l.dropWhile isSpaceChar).reverse.dropWhile isSpaceChar).reverse

/-- Python `str.strip()`: drop whitespace from both ends. -/
def pyStrip (s : String) : String :=
  String.mk (stripChars s.toList)

/-- Accumulator scan behind `pySplitComma`. -/
def splitCommaAux : List Char → List Char → List String
  | [], cur => [String.mk cur.reverse]
  | c :: rest, cur =>
    if c = ',' then String.mk cur.reverse :: splitCommaAux rest []
    else splitCommaAux rest (c :: cur)

/-- Python `s.split(",")`: split on every comma, keeping empty parts
(`"".split(",") == [""]`). -/
def pySplitComma (s : String) : List String :=
  splitCommaAux s.toList []

/-- First character in `A`-`Z`, as searched by the for-loop in
manager.py step 4 (`for ch in letter: if ... break`). -/
def firstUpper (s : String) : Option Char :=
  s.toList.find? isUpperLatin

/-- `list(dict.fromkeys(l))`: deduplicate preserving first occurrences. -/
def dedupe (l : List String) : List String :=
  l.foldl (fun acc x => if x ∈ acc then acc else acc ++ [x]) []

/-! ## Letter Extractor (app.py, `extract_letters_from_string`)

`re.findall(r"\b([A-Z])\b", s)`: every match is one character, so the
regex scan is a left-to-right scan over the characters; a character
matches when it is `A`-`Z` and both neighbours (or the string ends) are
word boundaries. -/

/-- Scanner for the regex, carrying the previous character. -/
def extract_letters_aux : Option Char → List Char → List String
  | _, [] => []
  | prev, c :: rest =>
    let okL := match prev with | none => true | some p => !isWordChar p
    let okR := match rest with | [] => true | d :: _ => !isWordChar d
    if isUpperLatin c && okL && okR then
      String.mk [c] :: extract_letters_aux (some c) rest
    else
      extract_letters_aux (some c) rest

/-- `extract_letters_from_string(s)` = `re.findall(r"\b([A-Z])\b", s)`. -/
def extract_letters_from_string (s : String) : List String :=
  extract_letters_aux none s.toList

/-- Specification-side predicate: position `i` of `cs` holds a single
uppercase Latin letter standing alone as a whole-word token (word
boundaries on both sides). -/
def standalone_at (cs : List Char) (i : Nat) : Bool :=
  decide (i < cs.length) &&
  isUpperLatin (cs.getD i ' ') &&
  (decide (i = 0) || !isWordChar (cs.getD (i - 1) ' ')) &&
  (decide (i + 1 = cs.length) || !isWordChar (cs.getD (i + 1) ' '))

/-- Specification-side extractor: the standalone uppercase letters of `s`,
listed in position order. -/
def spec_letters (s : String) : List String :=
  ((List.range s.toList.length).filter (standalone_at s.toList)).map
    (fun i => String.mk [s.toList.getD i ' '])

/-! ## Grader (app.py, "Finish quiz" grading block, lines 248-268)

A stored response is a list of letters, a free-text string, or absent
(`st.session_state.responses.get(idx, None)`). -/

/-- A user response as stored by the presentation layer. -/
inductive Response where
  | letters : List String → Response
  | text : String → Response
  | noResponse : Response

/-- The response-letter resolution of the grading block:
uppercase a letter list, run the Letter Extractor on free text,
empty for an absent response. -/
def user_letters_of : Response → List String
  | .letters rs => rs.map pyUpper
  | .text s => extract_letters_from_string s
  | .noResponse => []

/-- Python `set(a) == set(b)`: same elements regardless of order or
multiplicity. -/
def set_eq (a b : List String) : Bool :=
  a.all (fun x => x ∈ b) && b.all (fun x => x ∈ a)

/-- `is_correct` of the grading block:
`set(user_letters) == set(corr) and len(user_letters) > 0`. -/
def grade_is_correct (corr : List String) (resp : Response) : Bool :=
  let ul := user_letters_of resp
  if set_eq ul corr && decide (ul.length > 0) then true else false

/-- `gradeable = bool(corr) and bool(ch)` of the grading block, where
`ch` is the (optional) normalized choices dict. -/
def grade_gradeable (corr : List String) (ch : Option Record) : Bool :=
  !corr.isEmpty && ch.isSome

/-! ## JSON Structure Locator
(src/src/loaders/json_loader.py, `_find_questions_in_obj`; the identical
copy in app.py is `find_questions_in_obj`)

The Python `if res: return res` inside the recursion keeps scanning past
a `None` or falsy (e.g. empty-list) recursive result. -/

mutual

/-- `_find_questions_in_obj(obj)`. -/
def find_questions_in_obj : Json → Option Json
  | .obj m =>
    (match getKey m "questions" with
     | some (.arr l) => some (.arr l)
     | _ =>
       match getKey m "pageProps" with
       | some (.obj pm) =>
         if hasKey pm "questions" then getKey pm "questions"
         else find_in_values m
       | _ => find_in_values m)
  | .arr l =>
    (match l with
     | .obj first :: _ =>
       if hasKey first "question_text" || hasKey first "choices" then some (.arr l)
       else find_in_list l
     | _ => find_in_list l)
  | _ => none

/-- The `for v in obj.values(): res = ...; if res: return res` loop. -/
def find_in_values : List (String × Json) → Option Json
  | [] => none
  | (_, v) :: rest =>
    match find_questions_in_obj v with
    | some r => if jtruthy r then some r else find_in_values rest
    | none => find_in_values rest

/-- The `for item in obj: res = ...; if res: return res` loop. -/
def find_in_list : List Json → Option Json
  | [] => none
  | v :: rest =>
    match find_questions_in_obj v with
    | some r => if jtruthy r then some r else find_in_list rest
    | none => find_in_list rest

end

/-! ## Python `str`/`repr` rendering and `dict()` conversion,
needed by `_build_choices_from_row` (`str(v)`) and by the
`dict(raw)` copy at the top of `_normalize_question`. -/

mutual

/-- Python `repr` of a JSON-decoded value (string escaping not modelled;
no claim renders a string containing a quote). -/
def pyRepr : Json → String
  | .str s => (Char.ofNat 39).toString ++ s ++ (Char.ofNat 39).toString
  | .num n => toString n
  | .bool b => if b then "True" else "False"
  | .null => "None"
  | .arr l => "[" ++ ", ".intercalate (pyReprList l) ++ "]"
  | .obj m => "\x7b" ++ ", ".intercalate (pyReprPairs m) ++ "\x7d"

def pyReprList : List Json → List String
  | [] => []
  | x :: xs => pyRepr x :: pyReprList xs

def pyReprPairs : List (String × Json) → List String
  | [] => []
  | p :: ps =>
    ((Char.ofNat 39).toString ++ p.1 ++ (Char.ofNat 39).toString ++ ": " ++ pyRepr p.2) :: pyReprPairs ps

end

/-- Python `str(v)` of a JSON-decoded value. -/
def pyStr : Json → String
  | .str s => s
  | v => pyRepr v

/-- Python `dict(x)` on a JSON-decoded value, `none` when it raises.
A dict is copied; a list must consist of key-value pairs (pairs with a
non-string key cannot arise from the claims and are not modelled); an
empty list or empty string gives an empty dict; everything else raises
`TypeError` (e.g. `dict(5)`) or `ValueError` (e.g. `dict("hello")`,
whose elements are length-1 strings). -/
def pyDictPair : Json → Option (String × Json)
  | .arr [.str k, v] => some (k, v)
  | .str s =>
    match s.toList with
    | [c1, c2] => some (String.mk [c1], .str (String.mk [c2]))
    | _ => none
  | _ => none

def pyDict : Json → Option Record
  | .obj m => some m
  | .arr l => (l.mapM pyDictPair).map (fun ps => ps.foldl (fun acc p => setKey acc p.1 p.2) [])
  | .str s => if s.isEmpty then some [] else none
  | _ => none

/-! ## JSON Format Loader (src/src/loaders/json_loader.py)

`load_from_files` / `load_from_folder` are modelled from the point where
a file has been read and `json.loads` has succeeded (unreadable or
undecodable files are skipped before this point and produce no records,
so a batch is a list of decoded documents).  `questions.extend(found)`
iterates `found`, which raises `TypeError` on a non-iterable. -/

/-- Python `list.extend(x)`: the elements `x` contributes, `none` when
iterating `x` raises `TypeError`. A dict contributes its keys, a string
its characters. -/
def pyExtend : Json → Option (List Json)
  | .arr l => some l
  | .obj m => some (m.map (fun p => Json.str p.1))
  | .str s => some (s.toList.map (fun c => Json.str (String.mk [c])))
  | _ => none

/-- The fallback of the loader body: a top-level list contributes its
elements, a top-level dict is one record, anything else is skipped. -/
def top_fallback : Json → List Json
  | .arr l => l
  | .obj m => [.obj m]
  | _ => []

/-- One decoded document's contribution to the loader output:
`found = _find_questions_in_obj(data); if found: questions.extend(found)
elif isinstance(data, list): ... elif isinstance(data, dict): ...`. -/
def docRecords (data : Json) : Option (List Json) :=
  match find_questions_in_obj data with
  | some found => if jtruthy found then pyExtend found else some (top_fallback data)
  | none => some (top_fallback data)

/-- `json_loader.load_from_files` over the decoded documents; `none`
when an uncaught exception aborts the batch. -/
def json_load_from_docs (docs : List Json) : Option (List Json) :=
  (docs.mapM docRecords).map List.flatten

/-! ## CSV Format Loader (src/src/loaders/csv_loader.py)

Modelled from the point where `csv.DictReader` has produced the rows of
a file: a row maps each header name to a cell string, or to `None` for
a missing cell. -/

/-- `_parse_correct_answers(value)` (csv_loader.py): split a
comma-separated field, trim, drop empties, uppercase (no dedup here). -/
def csv_parse_correct_answers (value : Option Json) : List String :=
  match value with
  | some (.str v) =>
    if v.isEmpty then []
    else (pySplitComma v).filterMap fun part =>
      if (pyStrip part).isEmpty then none else some (pyUpper (pyStrip part))
  | _ => []

/-- The per-row body of `csv_loader.load_from_files`: strip keys and
string values, then rewrite `correct_answer` into a letter list. -/
def csv_row_to_record (row : List (String × Option String)) : Record :=
  let stripped : Record := row.map (fun p =>
    ((if p.1.isEmpty then p.1 else pyStrip p.1),
     match p.2 with
     | some v => Json.str (pyStrip v)
     | none => Json.null))
  let d := stripped.foldl (fun acc p => setKey acc p.1 p.2) []
  setKey d "correct_answer" (.arr ((csv_parse_correct_answers (getKey d "correct_answer")).map Json.str))

/-- `csv_loader.load_from_files` over the parsed rows of all files. -/
def csv_load_from_rows (rows : List (List (String × Option String))) : List Record :=
  rows.map csv_row_to_record

/-! ## Question Normalizer (src/src/loaders/manager.py)

`_normalize_question` is translated step by step, following the five
numbered comments in the source. -/

/-- `_parse_correct_answer_field(val)` (manager.py). -/
def parse_correct_answer_field (val : Option Json) : List String :=
  match val with
  | none => []
  | some v =>
    if jtruthy v = false then []
    else
      match v with
      | .arr items =>
        dedupe (items.foldl (fun acc item =>
          match item with
          | .str s => acc ++ ((pySplitComma s).filterMap fun part =>
              let p := pyUpper (pyStrip part)
              if p.isEmpty then none else some p)
          | _ => acc) [])
      | .str s =>
        dedupe ((pySplitComma s).filterMap fun part =>
          if (pyStrip part).isEmpty then none else some (pyUpper (pyStrip part)))
      | _ => []

/-- The key normalization of choices dicts:
`kk = str(k).strip().upper(); if len(kk) > 1: kk = kk[0]`. -/
def normChoiceKey (k : String) : String :=
  let kk := pyUpper (pyStrip k)
  if kk.length > 1 then
    match kk.toList with
    | c :: _ => String.mk [c]
    | [] => kk
  else kk

/-- `[chr(ord('A') + i) for i in range(max_choices)]`. -/
def lettersUpTo (max_choices : Nat) : List String :=
  (List.range max_choices).map (fun i => String.mk [Char.ofNat (65 + i)])

/-- The `choice_A`.. column scan of `_build_choices_from_row`.  A `str`
cell is kept stripped when non-blank; a non-`None` non-`str` cell always
passes the `v != ""` test and is kept as `str(v)`. -/
def choice_columns (row : Record) (mc : Nat) : Record :=
  (lettersUpTo mc).foldl (fun choices letter =>
    match getKey row ("choice_" ++ letter) with
    | none => choices
    | some Json.null => choices
    | some (Json.str s) =>
      if (pyStrip s).isEmpty then choices else setKey choices letter (.str (pyStrip s))
    | some v => setKey choices letter (.str (pyStr v))) []

/-- `_build_choices_from_row(row, max_choices)` (manager.py). -/
def build_choices_from_row (row : Record) (mc : Nat) : Record :=
  match getKey row "choices" with
  | some (.obj ch) =>
    if ch.isEmpty then choice_columns row mc
    else ch.foldl (fun acc kv =>
      setKey acc (normChoiceKey kv.1)
        (match kv.2 with
         | .str s => Json.str s
         | v => Json.str (pyStr v))) []
  | _ => choice_columns row mc

/-- Step 1 of `_normalize_question`: question text resolution
(`question_text`, else `enunciate`, else `text`). -/
def step1_question_text (q : Record) : Record :=
  if !truthyGet q "question_text" && truthyGet q "enunciate" then
    setKey q "question_text" ((getKey q "enunciate").getD Json.null)
  else if !truthyGet q "question_text" && truthyGet q "text" then
    setKey q "question_text" ((getKey q "text").getD Json.null)
  else q

/-- `isinstance(q.get('answer'), list)`. -/
def answer_is_list (q : Record) : Bool :=
  match getKey q "answer" with
  | some (.arr _) => true
  | _ => false

/-- The `answers_community` flattening of step 2: split each string
entry on commas, trim, uppercase, drop empties, dedupe. -/
def community_extract (items : List Json) : List String :=
  dedupe (items.foldl (fun acc item =>
    match item with
    | .str s => acc ++ ((pySplitComma s).filterMap fun part =>
        let p := pyUpper (pyStrip part)
        if p.isEmpty then none else some p)
    | _ => acc) [])

/-- Step 2 of `_normalize_question`: answer resolution.  Runs only when
`'answer' not in q or not isinstance(q.get('answer'), list)`; tries
`correct_answer`, then `answer_ET`, then a list-valued
`answers_community`, else leaves `answer` as `[]`. -/
def step2_resolve_answer (q : Record) : Record :=
  if hasKey q "answer" && answer_is_list q then q
  else if hasKey q "correct_answer" then
    setKey q "answer" (.arr ((parse_correct_answer_field (getKey q "correct_answer")).map .str))
  else if hasKey q "answer_ET" then
    setKey q "answer" (.arr ((parse_correct_answer_field (getKey q "answer_ET")).map .str))
  else
    match getKey q "answers_community" with
    | some (.arr items) => setKey q "answer" (.arr ((community_extract items).map .str))
    | _ => if answer_is_list q then q else setKey q "answer" (.arr [])

/-- Step 3 of `_normalize_question`: synthesize `choices` when it is
not already a non-empty dict; keep the record unchanged when the
synthesis comes out empty. -/
def step3_choices (q : Record) (mc : Nat) : Record :=
  if (match getKey q "choices" with | some (.obj m) => !m.isEmpty | _ => false) then q
  else
    let choices := build_choices_from_row q mc
    if choices.isEmpty then q else setKey q "choices" (.obj choices)

/-- One iteration of the step-4 loop: keep, for a non-blank string
entry, the first `A`-`Z` character of its trimmed uppercased form;
skip letterless or non-string entries and letters already seen. -/
def clean_answer_step (acc : List String) (a : Json) : List String :=
  match a with
  | .str s =>
    if (pyStrip s).isEmpty then acc
    else
      match firstUpper (pyUpper (pyStrip s)) with
      | some c => if String.mk [c] ∈ acc then acc else acc ++ [String.mk [c]]
      | none => acc
  | _ => acc

/-- The inner loop of step 4 over all candidate entries. -/
def clean_answer_entries (items : List Json) : List String :=
  items.foldl clean_answer_step []

/-- Step 4 of `_normalize_question`: normalize `answer` entries to
single uppercase letters; a non-list `answer` becomes `[]`. -/
def step4_clean_answer (q : Record) : Record :=
  match getKey q "answer" with
  | some (.arr items) => setKey q "answer" (.arr ((clean_answer_entries items).map .str))
  | _ => setKey q "answer" (.arr [])

/-- Step 5 of `_normalize_question`: re-normalize the keys of a
dict-valued `choices` (values untouched). -/
def step5_choice_keys (q : Record) : Record :=
  match getKey q "choices" with
  | some (.obj ch) =>
    setKey q "choices" (.obj (ch.foldl (fun acc kv => setKey acc (normChoiceKey kv.1) kv.2) []))
  | _ => q

/-- `_normalize_question(raw, max_choices)` (manager.py): the five
steps in order, on a shallow copy of the raw record. -/
def normalize_question (raw : Record) (mc : Nat) : Record :=
  step5_choice_keys (step4_clean_answer (step3_choices (step2_resolve_answer (step1_question_text raw)) mc))

/-! ## Loader manager pipelines (src/src/loaders/manager.py)

`load_from_files` / `load_from_folder` route files to the two loaders
and normalize every raw record.  They are modelled from the point where
routing and decoding are done: a batch is the list of successfully
decoded JSON documents plus the list of parsed CSV row tables.
`_normalize_question` begins with `dict(raw)`, which raises on the
non-mapping records a located JSON list may contain; `none` models the
exception propagating to the caller. -/

/-- `_normalize_question` applied to an arbitrary raw record, `none`
when `dict(raw)` raises. -/
def normalizeAny (j : Json) (mc : Nat) : Option Record :=
  (pyDict j).map (fun m => normalize_question m mc)

/-- The JSON half of `manager.load_from_files`. -/
def manager_load_json_docs (docs : List Json) (mc : Nat) : Option (List Record) := do
  let raws ← json_load_from_docs docs
  raws.mapM (fun r => normalizeAny r mc)

/-- `manager.load_from_files`: normalized questions from the JSON
documents, then from the CSV rows. -/
def manager_load_from_files (jsonDocs : List Json)
    (csvRows : List (List (String × Option String))) (mc : Nat) : Option (List Record) := do
  let jqs ← manager_load_json_docs jsonDocs mc
  let cqs := (csv_load_from_rows csvRows).map (fun r => normalize_question r mc)
  pure (jqs ++ cqs)

/-- The filesystem state `manager.load_from_folder` sees: whether the
path exists and is a directory, and the decoded contents of the
`.json` and `.csv` files found under it. -/
structure Folder where
  pathExists : Bool
  isDir : Bool
  jsonDocs : List Json
  csvRows : List (List (String × Option String))

/-- `manager.load_from_folder`: an early `return results` (the empty
list) when the path is missing or not a directory, else the same
processing as `load_from_files`. -/
def load_from_folder (f : Folder) (mc : Nat) : Option (List Record) :=
  if !(f.pathExists && f.isDir) then some []
  else do
    let raw_json ← json_load_from_docs f.jsonDocs
    let raw_csv := csv_load_from_rows f.csvRows
    let jqs ← raw_json.mapM (fun r => normalizeAny r mc)
    pure (jqs ++ raw_csv.map (fun r => normalize_question r mc))

/-- A single uppercase Latin letter, as a one-character string. -/
def is_single_upper (s : String) : Bool :=
  match s.toList with
  | [c] => isUpperLatin c
  | _ => false

/-- The Answer Key Resolution Policy as the Normalizer actually applies
it (the amended form of the spec policy): a pre-existing list-valued
`answer` is the highest-priority source, otherwise `correct_answer`
when that key is present, else `answer_ET` when present, else a
list-valued `answers_community`, else no candidates; the choice is
keyed on key presence (a present source that yields nothing is not
skipped), and sources are never merged. -/
def answer_source (q : Record) : List Json :=
  match getKey q "answer" with
  | some (.arr l) => l
  | _ =>
    if hasKey q "correct_answer" then
      (parse_correct_answer_field (getKey q "correct_answer")).map .str
    else if hasKey q "answer_ET" then
      (parse_correct_answer_field (getKey q "answer_ET")).map .str
    else
      match getKey q "answers_community" with
      | some (.arr items) => (community_extract items).map .str
      | _ => []

/-- The policy: the selected source, passed through the single-letter
cleanup. -/
def answer_policy_amended (q : Record) : List String :=
  clean_answer_entries (answer_source q)

/-! ## Dictionary lemmas -/

theorem getKey_setKey_same (m : Record) (k : String) (v : Json) :
    getKey (setKey m k v) k = some v := by
  induction m with
  | nil => simp [setKey, getKey]
  | cons p rest ih =>
    obtain ⟨k1, v1⟩ := p
    by_cases h : k1 = k <;> simp [setKey, getKey, h, ih]

theorem getKey_setKey_ne (m : Record) (k k2 : String) (v : Json) (h : k2 ≠ k) :
    getKey (setKey m k v) k2 = getKey m k2 := by
  induction m with
  | nil => simp [setKey, getKey, Ne.symm h]
  | cons p rest ih =>
    obtain ⟨k1, v1⟩ := p
    by_cases h1 : k1 = k
    · subst h1
      simp [setKey, getKey, Ne.symm h]
    · by_cases h2 : k1 = k2 <;> simp [setKey, getKey, h1, h2, h, ih]

theorem setKey_same_value (m : Record) (k : String) (v : Json)
    (h : getKey m k = some v) : setKey m k v = m := by
  induction m with
  | nil => simp [getKey] at h
  | cons p rest ih =>
    obtain ⟨k1, v1⟩ := p
    by_cases h1 : k1 = k
    · subst h1
      simp [getKey] at h
      simp [setKey, h]
    · simp [getKey, h1] at h
      simp [setKey, h1, ih h]

theorem truthyGet_setKey_ne (m : Record) (k k2 : String) (v : Json) (h : k2 ≠ k) :
    truthyGet (setKey m k v) k2 = truthyGet m k2 := by
  simp [truthyGet, getKey_setKey_ne m k k2 v h]

theorem hasKey_setKey_ne (m : Record) (k k2 : String) (v : Json) (h : k2 ≠ k) :
    hasKey (setKey m k v) k2 = hasKey m k2 := by
  simp [hasKey, getKey_setKey_ne m k k2 v h]

/-! ## Frame lemmas: each normalization step touches only its own key -/

theorem step1_frame (q : Record) (k : String) (h : k ≠ "question_text") :
    getKey (step1_question_text q) k = getKey q k := by
  unfold step1_question_text
  split
  · exact getKey_setKey_ne q _ k _ h
  · split
    · exact getKey_setKey_ne q _ k _ h
    · rfl

theorem step2_frame (q : Record) (k : String) (h : k ≠ "answer") :
    getKey (step2_resolve_answer q) k = getKey q k := by
  unfold step2_resolve_answer
  split
  · rfl
  · split
    · exact getKey_setKey_ne q _ k _ h
    · split
      · exact getKey_setKey_ne q _ k _ h
      · split
        · exact getKey_setKey_ne q _ k _ h
        · split
          · rfl
          · exact getKey_setKey_ne q _ k _ h

theorem step3_frame (q : Record) (mc : Nat) (k : String) (h : k ≠ "choices") :
    getKey (step3_choices q mc) k = getKey q k := by
  unfold step3_choices
  split
  · rfl
  · dsimp only
    split
    · rfl
    · exact getKey_setKey_ne q _ k _ h

theorem step4_frame (q : Record) (k : String) (h : k ≠ "answer") :
    getKey (step4_clean_answer q) k = getKey q k := by
  unfold step4_clean_answer
  split
  · exact getKey_setKey_ne q _ k _ h
  · exact getKey_setKey_ne q _ k _ h

theorem step5_frame (q : Record) (k : String) (h : k ≠ "choices") :
    getKey (step5_choice_keys q) k = getKey q k := by
  unfold step5_choice_keys
  split
  · exact getKey_setKey_ne q _ k _ h
  · rfl

/-! ## Claim theorems -/

/-- C9: for every raw record that is a mapping, every key other than
`question_text`, `answer` and `choices` appears in the Normalizer's
output with exactly the same value it had in the input. -/
theorem C9_extra_fields_preserved (q : Record) (mc : Nat) (k : String)
    (h1 : k ≠ "question_text") (h2 : k ≠ "answer") (h3 : k ≠ "choices") :
    getKey (normalize_question q mc) k = getKey q k := by
  unfold normalize_question
  rw [step5_frame _ _ h3, step4_frame _ _ h2, step3_frame _ _ _ h3,
    step2_frame _ _ h2, step1_frame _ _ h1]

/-- Witness for C9 at a concrete record and key. -/
theorem C9_extra_fields_preserved_witness :
    getKey (normalize_question [("url", Json.str "u"), ("question_id", Json.str "7")] 4) "url"
      = getKey [("url", Json.str "u"), ("question_id", Json.str "7")] "url" :=
  C9_extra_fields_preserved [("url", Json.str "u"), ("question_id", Json.str "7")] 4 "url"
    (by decide) (by decide) (by decide)

/-- C4: the Structure Locator returns a top-level list-valued
`questions` entry, even when a nested `pageProps.questions` exists;
and on a mapping without a top-level `questions` key whose `pageProps`
is a mapping with a `questions` list, it returns exactly that nested
list. -/
theorem C4_structure_locator_priority (m : Record) :
    (∀ L : List Json, getKey m "questions" = some (.arr L) →
        find_questions_in_obj (.obj m) = some (.arr L))
    ∧ (getKey m "questions" = none →
        ∀ pm : Record, getKey m "pageProps" = some (.obj pm) →
        ∀ L2 : List Json, getKey pm "questions" = some (.arr L2) →
          find_questions_in_obj (.obj m) = some (.arr L2)) := by
  constructor
  · intro L h
    unfold find_questions_in_obj
    rw [h]
  · intro h pm hp L2 hq
    unfold find_questions_in_obj
    rw [h, hp]
    simp [hasKey, hq]

/-- Witness for C4: both branches at concrete documents. -/
theorem C4_structure_locator_priority_witness :
    find_questions_in_obj (.obj [("questions", Json.arr [Json.num 1]),
        ("pageProps", Json.obj [("questions", Json.arr [Json.num 2])])])
      = some (Json.arr [Json.num 1])
    ∧ find_questions_in_obj (.obj [("pageProps", Json.obj [("questions", Json.arr [Json.num 2])])])
      = some (Json.arr [Json.num 2]) :=
  ⟨(C4_structure_locator_priority _).1 _ (by rfl),
   (C4_structure_locator_priority _).2 (by rfl) _ (by rfl) _ (by rfl)⟩

/-- C10: a document that decodes to a mapping whose `questions` key
holds the empty list is located but discarded as falsy, so the whole
mapping is appended as a single raw record: the loader output for that
document has length one. -/
theorem C10_empty_questions_list (m : Record)
    (h : getKey m "questions" = some (.arr [])) :
    json_load_from_docs [.obj m] = some [.obj m] := by
  have hd : docRecords (.obj m) = some [.obj m] := by
    unfold docRecords
    unfold find_questions_in_obj
    rw [h]
    simp [jtruthy, top_fallback]
  unfold json_load_from_docs
  simp [List.mapM, List.mapM.loop, hd]

/-- Witness for C10 at a concrete document. -/
theorem C10_empty_questions_list_witness :
    json_load_from_docs [.obj [("questions", Json.arr []), ("other", Json.num 7)]]
      = some [.obj [("questions", Json.arr []), ("other", Json.num 7)]] :=
  C10_empty_questions_list [("questions", Json.arr []), ("other", Json.num 7)] (by rfl)

/-- C7 counterexample: a non-existent folder path produces `some []` —
a normal return of the empty sequence, the very same caller-visible
result as an existing folder with zero questions; no distinct failure
is signalled. -/
theorem C7_cex :
    load_from_folder ⟨false, false,
        [Json.obj [("questions", Json.arr [Json.obj [("question_text", Json.str "q"),
          ("choices", Json.obj [("A", Json.str "x")]), ("answer", Json.arr [Json.str "A"])]])]],
        []⟩ 4
      = some []
    ∧ load_from_folder ⟨true, true, [], []⟩ 4 = some [] :=
  ⟨rfl, rfl⟩

/-- C7 amended: `load_from_folder` on a path that does not exist or is
not a directory returns the empty sequence without raising — the same
value an existing-but-empty folder yields. -/
theorem C7_missing_folder_returns_empty (f : Folder) (mc : Nat)
    (h : f.pathExists = false ∨ f.isDir = false) :
    load_from_folder f mc = some [] := by
  unfold load_from_folder
  rcases h with h | h <;> simp [h]

/-- Witness for the amended C7 at a concrete missing folder. -/
theorem C7_missing_folder_returns_empty_witness :
    load_from_folder ⟨false, true, [Json.obj [("questions", Json.arr [])]], []⟩ 4 = some [] :=
  C7_missing_folder_returns_empty ⟨false, true, [Json.obj [("questions", Json.arr [])]], []⟩ 4
    (Or.inl rfl)

/-- C5 counterexample: the pipeline applied to a located `questions`
list containing the number `5` aborts with an exception
(`dict(5)` raises `TypeError` inside `_normalize_question`), so the
Normalizer is not total on the raw records a Format Loader can
produce. -/
theorem C5_cex :
    manager_load_json_docs [Json.obj [("questions", Json.arr [Json.num 5])]] 4 = none := by
  rfl

/-- C5 amended: `_normalize_question` never fails on a raw record that
is a mapping, and on the empty mapping it produces the
minimally-populated question: empty `answer` list, no `choices`. -/
theorem C5_normalizer_total_on_mappings :
    (∀ (m : Record) (mc : Nat), (normalizeAny (.obj m) mc).isSome = true)
    ∧ normalize_question [] 4 = [("answer", Json.arr [])] := by
  exact ⟨fun m mc => rfl, rfl⟩

/-- C1 counterexample: on a record carrying both `answers_community`
(yielding the candidate `A`) and `correct_answer` (yielding `B`), the
Normalizer resolves `answer` from `correct_answer`, not from
`answers_community` as the claimed priority order requires. -/
theorem C1_cex :
    getKey (normalize_question
        [("answers_community", Json.arr [Json.str "A"]), ("correct_answer", Json.str "B")] 4)
        "answer"
      = some (Json.arr [Json.str "B"])
    ∧ ("B" : String) ≠ "A" :=
  ⟨rfl, by decide⟩

/-- C2 counterexample: on the free text of the claim the extractor also
returns the standalone pronoun `I`, so the result is not
`["B", "D"]`. -/
theorem C2_cex :
    extract_letters_from_string "I think B is right, not D" = ["I", "B", "D"]
    ∧ (["I", "B", "D"] : List String) ≠ ["B", "D"] :=
  ⟨rfl, by decide⟩

/-- C6 counterexample: a question whose raw `choices` dict has the key
`"1"` flows through the pipeline unchanged except for trimming and
uppercasing, so the output `choices` key `"1"` is not an uppercase
letter A-Z. -/
theorem C6_cex :
    manager_load_json_docs
        [Json.obj [("questions", Json.arr [Json.obj [("question_text", Json.str "q"),
          ("choices", Json.obj [("1", Json.str "x")])]])]] 4
      = some [[("question_text", Json.str "q"), ("choices", Json.obj [("1", Json.str "x")]),
          ("answer", Json.arr [])]]
    ∧ is_single_upper "1" = false :=
  ⟨rfl, rfl⟩

/-- Python set equality of two string lists coincides with equality of
their `Finset`s of elements. -/
theorem set_eq_iff_toFinset (a b : List String) :
    set_eq a b = true ↔ a.toFinset = b.toFinset := by
  simp only [set_eq, Bool.and_eq_true, List.all_eq_true, decide_eq_true_eq,
    Finset.ext_iff, List.mem_toFinset]
  constructor
  · rintro ⟨h1, h2⟩ x
    exact ⟨fun hx => h1 x hx, fun hx => h2 x hx⟩
  · intro h
    exact ⟨fun x hx => (h x).1 hx, fun x hx => (h x).2 hx⟩

/-- C3: the grading block judges a response correct exactly when the
resolved response-letter set equals the answer-letter set and the
response-letter set is non-empty; response `["a","c"]` against answer
`["A","C"]` is correct, and an empty response is never correct, even
against an empty answer key. -/
theorem C3_grading_set_equality :
    (∀ (corr : List String) (resp : Response),
        grade_is_correct corr resp = true ↔
          ((user_letters_of resp).toFinset = corr.toFinset ∧ user_letters_of resp ≠ []))
    ∧ grade_is_correct ["A", "C"] (.letters ["a", "c"]) = true
    ∧ (∀ corr : List String, grade_is_correct corr (.letters []) = false) := by
  refine ⟨?_, by rfl, ?_⟩
  · intro corr resp
    have hb : grade_is_correct corr resp
        = (set_eq (user_letters_of resp) corr && decide ((user_letters_of resp).length > 0)) := by
      cases h : set_eq (user_letters_of resp) corr && decide ((user_letters_of resp).length > 0) <;>
        simp [grade_is_correct, h]
    rw [hb, Bool.and_eq_true, set_eq_iff_toFinset]
    simp [List.length_pos]
  · intro corr
    simp [grade_is_correct, user_letters_of]

/-- Step 2 always leaves `answer` holding exactly the selected source
list: the pre-existing list when there is one, else the parse of the
first present key among `correct_answer`, `answer_ET`,
`answers_community`, else the empty list. -/
theorem step2_answer (q : Record) :
    getKey (step2_resolve_answer q) "answer" = some (.arr (answer_source q)) := by
  unfold step2_resolve_answer answer_source hasKey answer_is_list
  rcases h : getKey q "answer" with _ | w
  · simp only [Option.isSome_none, Bool.false_and, Bool.false_eq_true, if_false]
    cases hck : (getKey q "correct_answer").isSome
    · simp only [Bool.false_eq_true, if_false]
      cases het : (getKey q "answer_ET").isSome
      · simp only [Bool.false_eq_true, if_false]
        rcases h2 : getKey q "answers_community" with _ | w2
        · simp [getKey_setKey_same]
        · cases w2 <;> simp [getKey_setKey_same]
      · simp only [if_true, getKey_setKey_same]
    · simp only [if_true, getKey_setKey_same]
  · cases w <;>
      simp only [Option.isSome_some, Bool.true_and, Bool.false_eq_true, if_false, if_true,
        getKey_setKey_same]
    case arr l => exact h
    all_goals
      cases hck : (getKey q "correct_answer").isSome
      all_goals simp only [Bool.false_eq_true, if_false, if_true, getKey_setKey_same]
      all_goals
        cases het : (getKey q "answer_ET").isSome
        all_goals simp only [Bool.false_eq_true, if_false, if_true, getKey_setKey_same]
        all_goals
          rcases h2 : getKey q "answers_community" with _ | w2
          · simp [getKey_setKey_same]
          · cases w2 <;> simp [getKey_setKey_same]

/-- The answer resolution reads none of the keys step 1 writes, so the
selected source is unchanged by step 1. -/
theorem answer_source_step1 (q : Record) :
    answer_source (step1_question_text q) = answer_source q := by
  unfold answer_source hasKey
  rw [step1_frame q "answer" (by decide), step1_frame q "correct_answer" (by decide),
    step1_frame q "answer_ET" (by decide), step1_frame q "answers_community" (by decide)]

/-- Steps 3 and 4 turn a known `answer` list into its cleaned form. -/
theorem step34_answer (q2 : Record) (mc : Nat) (items : List Json)
    (h : getKey q2 "answer" = some (.arr items)) :
    getKey (step4_clean_answer (step3_choices q2 mc)) "answer"
      = some (.arr ((clean_answer_entries items).map .str)) := by
  have h3 : getKey (step3_choices q2 mc) "answer" = some (.arr items) := by
    rw [step3_frame _ _ _ (by decide), h]
  unfold step4_clean_answer
  rw [h3]
  exact getKey_setKey_same _ _ _

/-- The final `answer` of a normalized record is the cleanup of the
selected source of the raw record. -/
theorem normalize_answer_eq (q : Record) (mc : Nat) :
    getKey (normalize_question q mc) "answer"
      = some (.arr ((clean_answer_entries (answer_source q)).map .str)) := by
  unfold normalize_question
  rw [step5_frame _ _ (by decide),
    step34_answer _ mc (answer_source (step1_question_text q)) (step2_answer _),
    answer_source_step1]

/-- C1 (amended): the Normalizer resolves `answer` by the priority
order the code implements — a pre-existing list-valued `answer` first,
else `correct_answer` when that key is present, else `answer_ET` when
present, else a list-valued `answers_community`, else empty — keyed on
key presence, never merging sources, and funnelling the selected
candidates through the single-letter cleanup. -/
theorem C1_answer_priority_amended (q : Record) (mc : Nat) :
    getKey (normalize_question q mc) "answer"
      = some (.arr ((answer_policy_amended q).map .str)) :=
  normalize_answer_eq q mc

/-- A letter produced by `firstUpper` is an uppercase Latin letter. -/
theorem firstUpper_upper {s : String} {c : Char} (h : firstUpper s = some c) :
    isUpperLatin c = true :=
  List.find?_some h

/-- The step-4 loop preserves "all entries are single uppercase
letters, no duplicates". -/
theorem clean_answer_fold_inv (its : List Json) (acc : List String)
    (h1 : ∀ s ∈ acc, is_single_upper s = true) (h2 : acc.Nodup) :
    (∀ s ∈ its.foldl clean_answer_step acc, is_single_upper s = true)
    ∧ (its.foldl clean_answer_step acc).Nodup := by
  induction its generalizing acc with
  | nil => exact ⟨h1, h2⟩
  | cons a rest ih =>
    simp only [List.foldl_cons]
    refine ih (clean_answer_step acc a) ?_ ?_
    all_goals
      unfold clean_answer_step
      cases a <;> try exact (by assumption)
    all_goals
      rename_i s
      by_cases hstr : (pyStrip s).isEmpty = true
      · simp only [hstr, if_true]; assumption
      · simp only [hstr, Bool.false_eq_true, if_false]
        rcases hf : firstUpper (pyUpper (pyStrip s)) with _ | c
        · assumption
        · by_cases hmem : String.mk [c] ∈ acc
          · simp only [hmem, if_true]; assumption
          · simp only [hmem, if_false]
            first
            | · intro x hx
                rcases List.mem_append.mp hx with hx | hx
                · exact h1 x hx
                · have hc : x = String.mk [c] := by simpa using hx
                  subst hc
                  show isUpperLatin c = true
                  exact firstUpper_upper hf
            | · rw [List.nodup_append]
                refine ⟨h2, List.nodup_singleton _, ?_⟩
                intro x hx hx2
                have : x = String.mk [c] := by simpa using hx2
                exact hmem (this ▸ hx)

/-- Every `answer` list the cleanup produces consists of single
uppercase letters without duplicates. -/
theorem clean_answer_entries_inv (items : List Json) :
    (∀ s ∈ clean_answer_entries items, is_single_upper s = true)
    ∧ (clean_answer_entries items).Nodup :=
  clean_answer_fold_inv items [] (by intro s hs; cases hs) List.nodup_nil

/-- Character-level facts behind key normalization, checked over the
relevant codepoint range. -/
theorem upper_shift_eval : ∀ n, n < 123 → 97 ≤ n →
    isSpaceChar (Char.ofNat (n - 32)) = false
    ∧ pyUpperChar (Char.ofNat (n - 32)) = Char.ofNat (n - 32) := by decide

/-- `pyUpperChar` maps a non-space character to a non-space fixed point
of `pyUpperChar`. -/
theorem pyUpperChar_fix (c : Char) (h : isSpaceChar c = false) :
    isSpaceChar (pyUpperChar c) = false ∧ pyUpperChar (pyUpperChar c) = pyUpperChar c := by
  by_cases hl : (97 ≤ c.toNat && c.toNat ≤ 122) = true
  · have hb := Bool.and_eq_true .. ▸ hl
    rw [Bool.and_eq_true, decide_eq_true_eq, decide_eq_true_eq] at hl
    have := upper_shift_eval c.toNat (by omega) hl.1
    have hval : pyUpperChar c = Char.ofNat (c.toNat - 32) := by
      unfold pyUpperChar
      rw [if_pos]
      simpa using hb
    rw [hval]
    exact this
  · have hval : pyUpperChar c = c := by
      unfold pyUpperChar
      rw [if_neg]
      simpa using hl
    rw [hval, hval]
    exact ⟨h, rfl⟩

/-- `dropWhile` returns a list whose head fails the predicate. -/
theorem dropWhile_head_false {p : Char → Bool} : ∀ (l : List Char) (c : Char) (cs : List Char),
    l.dropWhile p = c :: cs → p c = false := by
  intro l
  induction l with
  | nil => intro c cs h; simp [List.dropWhile] at h
  | cons a as ih =>
    intro c cs h
    by_cases ha : p a = true
    · rw [List.dropWhile_cons_of_pos ha] at h
      exact ih c cs h
    · rw [List.dropWhile_cons_of_neg ha] at h
      cases h
      simpa using ha

/-- `dropWhile` cannot remove a final element failing the predicate. -/
theorem dropWhile_append_last {p : Char → Bool} (a : Char) (ha : p a = false) :
    ∀ (l : List Char), (l ++ [a]).dropWhile p = l.dropWhile p ++ [a] := by
  intro l
  induction l with
  | nil => simp [List.dropWhile, ha]
  | cons x xs ih =>
    by_cases hx : p x = true
    · simp only [List.cons_append, List.dropWhile_cons_of_pos hx, ih]
    · simp only [List.cons_append, List.dropWhile_cons_of_neg hx]

/-- The shape of a stripped character list: empty, or led by the first
non-space character (which the right-hand strip cannot remove). -/
theorem stripChars_shape (l : List Char) :
    stripChars l = []
    ∨ ∃ c0 rest, l.dropWhile isSpaceChar = c0 :: rest ∧ isSpaceChar c0 = false
        ∧ stripChars l = c0 :: ((rest.reverse.dropWhile isSpaceChar).reverse) := by
  rcases h : l.dropWhile isSpaceChar with _ | ⟨c0, rest⟩
  · left
    unfold stripChars
    rw [h]
    rfl
  · right
    have hc0 : isSpaceChar c0 = false := dropWhile_head_false l c0 rest h
    refine ⟨c0, rest, rfl, hc0, ?_⟩
    unfold stripChars
    rw [h]
    have : (c0 :: rest).reverse = rest.reverse ++ [c0] := by simp
    rw [this, dropWhile_append_last c0 hc0]
    simp

/-- A non-space `pyUpperChar`-fixed character is untouched by key
normalization. -/
theorem normChoiceKey_single (d : Char) (h1 : isSpaceChar d = false)
    (h2 : pyUpperChar d = d) : normChoiceKey (String.mk [d]) = String.mk [d] := by
  have hstrip : stripChars [d] = [d] := by
    unfold stripChars
    rw [List.dropWhile_cons_of_neg (by simp [h1])]
    simp [List.dropWhile_cons_of_neg, h1]
  have e1 : pyStrip (String.mk [d]) = String.mk [d] := congrArg String.mk hstrip
  have e2 : pyUpper (String.mk [d]) = String.mk [d] := by
    show String.mk [pyUpperChar d] = String.mk [d]
    rw [h2]
  unfold normChoiceKey
  rw [e1, e2]
  rw [if_neg (by exact Nat.lt_irrefl 1)]

/-- Every normalized choices key is empty or one non-space
`pyUpperChar`-fixed character. -/
theorem normChoiceKey_shape (k : String) :
    normChoiceKey k = String.mk []
    ∨ ∃ d, isSpaceChar d = false ∧ pyUpperChar d = d ∧ normChoiceKey k = String.mk [d] := by
  rcases stripChars_shape k.toList with h | ⟨c0, rest, hdw, hc0, hst⟩
  · left
    have e1 : pyStrip k = String.mk [] := congrArg String.mk h
    have e2 : pyUpper (String.mk []) = String.mk [] := rfl
    unfold normChoiceKey
    rw [e1, e2]
    rw [if_neg (by decide)]
  · right
    obtain ⟨hd1, hd2⟩ := pyUpperChar_fix c0 hc0
    refine ⟨pyUpperChar c0, hd1, hd2, ?_⟩
    have e1 : pyStrip k = String.mk (c0 :: (rest.reverse.dropWhile isSpaceChar).reverse) :=
      congrArg String.mk hst
    have e2 : pyUpper (String.mk (c0 :: (rest.reverse.dropWhile isSpaceChar).reverse))
        = String.mk (pyUpperChar c0 :: ((rest.reverse.dropWhile isSpaceChar).reverse).map pyUpperChar) :=
      rfl
    unfold normChoiceKey
    rw [e1, e2]
    rcases hRm : ((rest.reverse.dropWhile isSpaceChar).reverse).map pyUpperChar with _ | ⟨r, rs⟩
    · rfl
    · dsimp only
      rw [if_pos (by show 1 < rs.length + 1 + 1; omega)]
      rfl

/-- Normalized choices keys are fixed points of the normalization and
have at most one character. -/
theorem normChoiceKey_fix (k : String) :
    normChoiceKey (normChoiceKey k) = normChoiceKey k ∧ (normChoiceKey k).length ≤ 1 := by
  rcases normChoiceKey_shape k with h | ⟨d, h1, h2, h⟩
  · rw [h]
    constructor
    · rfl
    · exact Nat.zero_le 1
  · rw [h]
    exact ⟨normChoiceKey_single d h1 h2, Nat.le_refl 1⟩

/-- A member of `setKey m k v` is the new pair or an old member. -/
theorem setKey_mem (m : Record) (k : String) (v : Json) :
    ∀ p ∈ setKey m k v, p = (k, v) ∨ p ∈ m := by
  induction m with
  | nil => intro p hp; simp [setKey] at hp; simp [hp]
  | cons q rest ih =>
    obtain ⟨k1, v1⟩ := q
    intro p hp
    by_cases h1 : k1 = k
    · rw [setKey, if_pos h1] at hp
      rcases List.mem_cons.mp hp with hp1 | hp1
      · exact Or.inl hp1
      · exact Or.inr (List.mem_cons_of_mem _ hp1)
    · rw [setKey, if_neg h1] at hp
      rcases List.mem_cons.mp hp with hp1 | hp1
      · exact Or.inr (by simp [hp1])
      · rcases ih p hp1 with h | h
        · exact Or.inl h
        · exact Or.inr (List.mem_cons_of_mem _ h)

/-- Every key of the step-5 rebuild is in the image of
`normChoiceKey`. -/
theorem step5_fold_keys (ch : Record) (acc : Record)
    (hacc : ∀ kv ∈ acc, ∃ k0, kv.1 = normChoiceKey k0) :
    ∀ kv ∈ ch.foldl (fun a kv => setKey a (normChoiceKey kv.1) kv.2) acc,
      ∃ k0, kv.1 = normChoiceKey k0 := by
  induction ch generalizing acc with
  | nil => exact hacc
  | cons p rest ih =>
    simp only [List.foldl_cons]
    refine ih _ ?_
    intro kv hkv
    rcases setKey_mem acc (normChoiceKey p.1) p.2 kv hkv with h | h
    · exact ⟨p.1, by rw [h]⟩
    · exact hacc kv h

/-- After normalization, a dict-valued `choices` has only keys in the
image of `normChoiceKey`. -/
theorem normalize_choices_keys (q : Record) (mc : Nat) :
    ∀ ch, getKey (normalize_question q mc) "choices" = some (.obj ch) →
      ∀ kv ∈ ch, ∃ k0, kv.1 = normChoiceKey k0 := by
  intro ch hch kv hkv
  unfold normalize_question step5_choice_keys at hch
  rcases hc : getKey (step4_clean_answer (step3_choices (step2_resolve_answer (step1_question_text q)) mc)) "choices" with _ | w
  · rw [hc] at hch
    rw [hc] at hch
    cases hch
  · rw [hc] at hch
    cases w with
    | obj ch0 =>
      rw [getKey_setKey_same] at hch
      cases hch
      exact step5_fold_keys ch0 [] (by intro kv hkv; cases hkv) kv hkv
    | arr l => rw [hc] at hch; cases hch
    | str s => rw [hc] at hch; cases hch
    | num n => rw [hc] at hch; cases hch
    | bool b => rw [hc] at hch; cases hch
    | null => rw [hc] at hch; cases hch

/-- Inverting `mapM` over the normalizer: every output of a successful
batch is the normalization of some mapping. -/
theorem mapM_normalizeAny_mem (rs : List Json) (mc : Nat) (qs : List Record)
    (h : rs.mapM (fun r => normalizeAny r mc) = some qs) :
    ∀ q ∈ qs, ∃ m, q = normalize_question m mc := by
  induction rs generalizing qs with
  | nil =>
    simp only [List.mapM_nil, pure, Option.some.injEq] at h
    subst h
    intro q hq
    cases hq
  | cons r rest ih =>
    rw [List.mapM_cons] at h
    rcases hy : normalizeAny r mc with _ | y
    · rw [hy] at h
      simp only [Option.pure_def, Option.bind_eq_bind, Option.none_bind] at h
      cases h
    · rw [hy] at h
      simp only [Option.pure_def, Option.bind_eq_bind, Option.some_bind] at h
      rcases hys : rest.mapM (fun r => normalizeAny r mc) with _ | ys
      · rw [hys] at h
        simp only [Option.none_bind] at h
        cases h
      · rw [hys] at h
        simp only [Option.some_bind, Option.some.injEq] at h
        subst h
        intro q hq
        rcases List.mem_cons.mp hq with hq | hq
        · unfold normalizeAny at hy
          rcases hm : pyDict r with _ | m
          · rw [hm] at hy
            cases hy
          · rw [hm] at hy
            simp only [Option.map_some', Option.some.injEq] at hy
            exact ⟨m, by rw [hq, ← hy]⟩
        · exact ih ys hys q hq

/-- Every question a successful `load_from_files` run returns is the
normalization of some mapping. -/
theorem manager_mem_normalized (docs : List Json)
    (rows : List (List (String × Option String))) (mc : Nat) (qs : List Record)
    (h : manager_load_from_files docs rows mc = some qs) :
    ∀ q ∈ qs, ∃ m, q = normalize_question m mc := by
  unfold manager_load_from_files manager_load_json_docs at h
  rcases hj : json_load_from_docs docs with _ | raws
  · rw [hj] at h
    simp only [Option.pure_def, Option.bind_eq_bind, Option.none_bind] at h
    cases h
  · rw [hj] at h
    simp only [Option.pure_def, Option.bind_eq_bind, Option.some_bind] at h
    rcases hq2 : raws.mapM (fun r => normalizeAny r mc) with _ | jqs
    · rw [hq2] at h
      simp at h
    · rw [hq2] at h
      simp only [Option.some_bind, Option.some.injEq] at h
      subst h
      intro q hq
      rcases List.mem_append.mp hq with hq | hq
      · exact mapM_normalizeAny_mem raws mc jqs hq2 q hq
      · rcases List.mem_map.mp hq with ⟨r, hr, hqr⟩
        exact ⟨r, hqr.symm⟩

/-- C6 (amended): every question a successful pipeline run returns has
an `answer` list of single uppercase letters with no duplicates (as
claimed), and every key of a dict-valued `choices` is trim/uppercase
normalized and at most one character long — but need not be a Latin
letter (a digit or empty-string key survives). -/
theorem C6_canonical_letters_amended (docs : List Json)
    (rows : List (List (String × Option String))) (mc : Nat) (qs : List Record)
    (h : manager_load_from_files docs rows mc = some qs) :
    ∀ q ∈ qs,
      (∃ ss : List String, getKey q "answer" = some (.arr (ss.map Json.str))
          ∧ (∀ s ∈ ss, is_single_upper s = true) ∧ ss.Nodup)
      ∧ (∀ ch, getKey q "choices" = some (.obj ch) →
          ∀ kv ∈ ch, normChoiceKey kv.1 = kv.1 ∧ kv.1.length ≤ 1) := by
  intro q hq
  obtain ⟨m, rfl⟩ := manager_mem_normalized docs rows mc qs h q hq
  constructor
  · exact ⟨clean_answer_entries (answer_source m), normalize_answer_eq m mc,
      (clean_answer_entries_inv _).1, (clean_answer_entries_inv _).2⟩
  · intro ch hch kv hkv
    obtain ⟨k0, hk0⟩ := normalize_choices_keys m mc ch hch kv hkv
    rw [hk0]
    exact ⟨(normChoiceKey_fix k0).1, (normChoiceKey_fix k0).2⟩

/-- Witness for the amended C6 at a concrete pipeline run and a
concrete choices key. -/
theorem C6_canonical_letters_amended_witness :
    (∃ ss : List String,
        getKey [("question_text", Json.str "q"), ("choices", Json.obj [("A", Json.str "x")]),
            ("correct_answer", Json.str "b, a ,b"), ("answer", Json.arr [Json.str "B", Json.str "A"])]
            "answer"
          = some (.arr (ss.map Json.str))
        ∧ (∀ s ∈ ss, is_single_upper s = true) ∧ ss.Nodup)
    ∧ normChoiceKey "A" = "A" ∧ ("A" : String).length ≤ 1 :=
  ⟨(C6_canonical_letters_amended
      [Json.obj [("questions", Json.arr [Json.obj [("question_text", Json.str "q"),
        ("choices", Json.obj [(" ab ", Json.str "x")]), ("correct_answer", Json.str "b, a ,b")]])]]
      [] 4
      [[("question_text", Json.str "q"), ("choices", Json.obj [("A", Json.str "x")]),
        ("correct_answer", Json.str "b, a ,b"), ("answer", Json.arr [Json.str "B", Json.str "A"])]]
      (by rfl)
      [("question_text", Json.str "q"), ("choices", Json.obj [("A", Json.str "x")]),
        ("correct_answer", Json.str "b, a ,b"), ("answer", Json.arr [Json.str "B", Json.str "A"])]
      (by simp)).1,
   ((C6_canonical_letters_amended
      [Json.obj [("questions", Json.arr [Json.obj [("question_text", Json.str "q"),
        ("choices", Json.obj [(" ab ", Json.str "x")]), ("correct_answer", Json.str "b, a ,b")]])]]
      [] 4
      [[("question_text", Json.str "q"), ("choices", Json.obj [("A", Json.str "x")]),
        ("correct_answer", Json.str "b, a ,b"), ("answer", Json.arr [Json.str "B", Json.str "A"])]]
      (by rfl)
      [("question_text", Json.str "q"), ("choices", Json.obj [("A", Json.str "x")]),
        ("correct_answer", Json.str "b, a ,b"), ("answer", Json.arr [Json.str "B", Json.str "A"])]
      (by simp)).2 [("A", Json.str "x")] (by rfl) ("A", Json.str "x") (by simp))⟩

/-- An uppercase Latin letter is not whitespace and is fixed by
`pyUpperChar`. -/
theorem upper_char_fixed (c : Char) (h : isUpperLatin c = true) :
    isSpaceChar c = false ∧ pyUpperChar c = c := by
  unfold isUpperLatin at h
  rw [Bool.and_eq_true, decide_eq_true_eq, decide_eq_true_eq] at h
  constructor
  · simp only [isSpaceChar, Bool.or_eq_false_iff, decide_eq_false_iff_not]
    omega
  · unfold pyUpperChar
    rw [if_neg]
    simp only [Bool.and_eq_true, decide_eq_true_eq, not_and]
    omega

/-- Stripping a singleton of a non-space character is the identity. -/
theorem stripChars_singleton (c : Char) (h : isSpaceChar c = false) :
    stripChars [c] = [c] := by
  unfold stripChars
  rw [List.dropWhile_cons_of_neg (by simp [h])]
  simp [List.dropWhile_cons_of_neg, h]

/-- A single uppercase letter passes the step-4 cleanup untouched:
one loop iteration appends it unless it is already present. -/
theorem clean_answer_step_single (acc : List String) (c : Char)
    (h : isUpperLatin c = true) :
    clean_answer_step acc (.str (String.mk [c]))
      = if String.mk [c] ∈ acc then acc else acc ++ [String.mk [c]] := by
  obtain ⟨hsp, hup⟩ := upper_char_fixed c h
  have e1 : pyStrip (String.mk [c]) = String.mk [c] :=
    congrArg String.mk (stripChars_singleton c hsp)
  have e2 : pyUpper (String.mk [c]) = String.mk [c] := by
    show String.mk [pyUpperChar c] = String.mk [c]
    rw [hup]
  have e3 : firstUpper (String.mk [c]) = some c := by
    unfold firstUpper
    show List.find? isUpperLatin [c] = some c
    rw [List.find?_cons_of_pos _ h]
  simp only [clean_answer_step]
  rw [e1, e2, e3]
  rw [if_neg (by simp [String.isEmpty_iff, String.ext_iff])]

/-- The step-4 loop is the identity on an already-clean letter list. -/
theorem clean_answer_fold_id (ss : List String) (acc : List String)
    (hs : ∀ s ∈ ss, is_single_upper s = true) (hnd : (acc ++ ss).Nodup) :
    (ss.map Json.str).foldl clean_answer_step acc = acc ++ ss := by
  induction ss generalizing acc with
  | nil => simp
  | cons s rest ih =>
    simp only [List.map_cons, List.foldl_cons]
    have hsu : is_single_upper s = true := hs s (List.mem_cons_self s rest)
    obtain ⟨c, hc, hcu⟩ : ∃ c, s = String.mk [c] ∧ isUpperLatin c = true := by
      unfold is_single_upper at hsu
      rcases hl : s.toList with _ | ⟨c, cs⟩
      · rw [hl] at hsu; cases hsu
      · rcases cs with _ | ⟨c2, cs2⟩
        · rw [hl] at hsu
          refine ⟨c, ?_, hsu⟩
          rcases s with ⟨data⟩
          cases hl
          rfl
        · rw [hl] at hsu; cases hsu
    have hmem : s ∉ acc := by
      intro hin
      rw [List.nodup_append] at hnd
      exact hnd.2.2 hin (List.mem_cons_self s rest)
    rw [hc, clean_answer_step_single acc c hcu, if_neg (hc ▸ hmem), ← hc]
    have : acc ++ s :: rest = (acc ++ [s]) ++ rest := by simp
    rw [this]
    refine ih (acc ++ [s]) (fun x hx => hs x (List.mem_cons_of_mem _ hx)) ?_
    simpa using hnd

/-- Setting an absent key appends the pair at the end. -/
theorem setKey_absent (m : Record) (k : String) (v : Json)
    (h : ∀ p ∈ m, p.1 ≠ k) : setKey m k v = m ++ [(k, v)] := by
  induction m with
  | nil => rfl
  | cons p rest ih =>
    obtain ⟨k1, v1⟩ := p
    rw [setKey, if_neg (h (k1, v1) (List.mem_cons_self _ _))]
    rw [List.cons_append]
    rw [ih (fun p hp => h p (List.mem_cons_of_mem _ hp))]

/-- The step-5 rebuild is the identity on a choices dict whose keys are
already normalized and distinct. -/
theorem step5_fold_id (ch : Record) (acc : Record)
    (hfix : ∀ kv ∈ ch, normChoiceKey kv.1 = kv.1)
    (hnd : ((acc ++ ch).map Prod.fst).Nodup) :
    ch.foldl (fun a kv => setKey a (normChoiceKey kv.1) kv.2) acc = acc ++ ch := by
  induction ch generalizing acc with
  | nil => simp
  | cons kv rest ih =>
    simp only [List.foldl_cons]
    rw [hfix kv (List.mem_cons_self _ _)]
    have habs : ∀ p ∈ acc, p.1 ≠ kv.1 := by
      intro p hp heq
      simp only [List.map_append, List.map_cons, List.nodup_append] at hnd
      exact hnd.2.2 (List.mem_map_of_mem Prod.fst hp)
        (by rw [heq]; exact List.mem_cons_self _ _)
    rw [setKey_absent acc kv.1 kv.2 habs]
    have hkv : (kv.1, kv.2) = kv := rfl
    rw [hkv]
    have : acc ++ kv :: rest = (acc ++ [kv]) ++ rest := by simp
    rw [this]
    refine ih (acc ++ [kv]) (fun p hp => hfix p (List.mem_cons_of_mem _ hp)) ?_
    simpa using hnd

/-- Step 1 either leaves the record unchanged or leaves it with a
truthy `question_text`. -/
theorem step1_cases (q : Record) :
    step1_question_text q = q
    ∨ truthyGet (step1_question_text q) "question_text" = true := by
  unfold step1_question_text
  by_cases h1 : truthyGet q "question_text" = true
  · left
    rw [if_neg (by simp [h1]), if_neg (by simp [h1])]
  · have h1f : truthyGet q "question_text" = false := by
      cases hb : truthyGet q "question_text"
      · rfl
      · exact absurd hb h1
    by_cases h2 : truthyGet q "enunciate" = true
    · right
      rw [if_pos (by rw [h1f, h2]; rfl)]
      unfold truthyGet at h2 ⊢
      rw [getKey_setKey_same]
      rcases he : getKey q "enunciate" with _ | v
      · rw [he] at h2
        simp at h2
      · rw [he] at h2
        simpa using h2
    · have h2f : truthyGet q "enunciate" = false := by
        cases hb : truthyGet q "enunciate"
        · rfl
        · exact absurd hb h2
      by_cases h3 : truthyGet q "text" = true
      · right
        rw [if_neg (by simp [h2f]), if_pos (by rw [h1f, h3]; rfl)]
        unfold truthyGet at h3 ⊢
        rw [getKey_setKey_same]
        rcases he : getKey q "text" with _ | v
        · rw [he] at h3
          simp at h3
        · rw [he] at h3
          simpa using h3
      · left
        have h3f : truthyGet q "text" = false := by
          cases hb : truthyGet q "text"
          · rfl
          · exact absurd hb h3
        rw [if_neg (by simp [h2f]), if_neg (by simp [h3f])]

/-- Step 1 is idempotent. -/
theorem step1_idem (q : Record) :
    step1_question_text (step1_question_text q) = step1_question_text q := by
  rcases step1_cases q with h | h
  · rw [h]
    exact h
  · generalize hr : step1_question_text q = r at h ⊢
    unfold step1_question_text
    rw [if_neg (by simp [h]), if_neg (by simp [h])]

/-- Unpack a single-uppercase-letter string. -/
theorem single_upper_char (s : String) (h : is_single_upper s = true) :
    ∃ c, s = String.mk [c] ∧ isUpperLatin c = true := by
  unfold is_single_upper at h
  rcases hl : s.toList with _ | ⟨c, cs⟩
  · rw [hl] at h
    cases h
  · rcases cs with _ | ⟨c2, cs2⟩
    · rw [hl] at h
      refine ⟨c, ?_, h⟩
      rcases s with ⟨data⟩
      cases hl
      rfl
    · rw [hl] at h
      cases h

/-- Key normalization is the identity on single uppercase letters. -/
theorem normChoiceKey_id_single_upper (s : String) (h : is_single_upper s = true) :
    normChoiceKey s = s := by
  obtain ⟨c, rfl, hcu⟩ := single_upper_char s h
  obtain ⟨hsp, hup⟩ := upper_char_fixed c hcu
  exact normChoiceKey_single c hsp hup

/-- On an already-canonical record, the Normalizer only resolves the
question text: steps 2-5 leave the record unchanged. -/
theorem normalize_canonical_eq_step1 (q : Record) (mc : Nat)
    (ss : List String) (ch : Record)
    (ha : getKey q "answer" = some (.arr (ss.map Json.str)))
    (hs : ∀ s ∈ ss, is_single_upper s = true)
    (hnd : ss.Nodup)
    (hc : getKey q "choices" = some (.obj ch))
    (hch : ch ≠ [])
    (hck : ∀ kv ∈ ch, is_single_upper kv.1 = true)
    (hknd : (ch.map Prod.fst).Nodup) :
    normalize_question q mc = step1_question_text q := by
  have ha1 : getKey (step1_question_text q) "answer" = some (.arr (ss.map Json.str)) := by
    rw [step1_frame q _ (by decide)]
    exact ha
  have hc1 : getKey (step1_question_text q) "choices" = some (.obj ch) := by
    rw [step1_frame q _ (by decide)]
    exact hc
  have hclean : clean_answer_entries (ss.map Json.str) = ss := by
    unfold clean_answer_entries
    rw [clean_answer_fold_id ss [] hs (by simpa using hnd)]
    simp
  have hfix : ∀ kv ∈ ch, normChoiceKey kv.1 = kv.1 :=
    fun kv hkv => normChoiceKey_id_single_upper kv.1 (hck kv hkv)
  unfold normalize_question
  have h2 : step2_resolve_answer (step1_question_text q) = step1_question_text q := by
    unfold step2_resolve_answer
    rw [if_pos (by simp [hasKey, answer_is_list, ha1])]
  rw [h2]
  have h3 : step3_choices (step1_question_text q) mc = step1_question_text q := by
    unfold step3_choices
    rw [if_pos (by rw [hc1]; simp [hch])]
  rw [h3]
  have h4a : step4_clean_answer (step1_question_text q)
      = setKey (step1_question_text q) "answer"
          (.arr ((clean_answer_entries (ss.map Json.str)).map Json.str)) := by
    unfold step4_clean_answer
    rw [ha1]
  have h4 : step4_clean_answer (step1_question_text q) = step1_question_text q := by
    rw [h4a, hclean]
    exact setKey_same_value _ _ _ ha1
  rw [h4]
  have h5a : step5_choice_keys (step1_question_text q)
      = setKey (step1_question_text q) "choices"
          (.obj (ch.foldl (fun a kv => setKey a (normChoiceKey kv.1) kv.2) [])) := by
    unfold step5_choice_keys
    rw [hc1]
  rw [h5a, step5_fold_id ch [] hfix (by simpa using hknd)]
  rw [List.nil_append]
  exact setKey_same_value _ _ _ hc1

/-- C8: the Normalizer is idempotent on already-canonical questions —
non-empty `choices` with distinct single-uppercase-letter keys and an
`answer` that is already a clean list of distinct single uppercase
letters. -/
theorem C8_normalizer_idempotent (q : Record) (mc : Nat)
    (ss : List String) (ch : Record)
    (ha : getKey q "answer" = some (.arr (ss.map Json.str)))
    (hs : ∀ s ∈ ss, is_single_upper s = true)
    (hnd : ss.Nodup)
    (hc : getKey q "choices" = some (.obj ch))
    (hch : ch ≠ [])
    (hck : ∀ kv ∈ ch, is_single_upper kv.1 = true)
    (hknd : (ch.map Prod.fst).Nodup) :
    normalize_question (normalize_question q mc) mc = normalize_question q mc := by
  have ha1 : getKey (step1_question_text q) "answer" = some (.arr (ss.map Json.str)) := by
    rw [step1_frame q _ (by decide)]
    exact ha
  have hc1 : getKey (step1_question_text q) "choices" = some (.obj ch) := by
    rw [step1_frame q _ (by decide)]
    exact hc
  rw [normalize_canonical_eq_step1 q mc ss ch ha hs hnd hc hch hck hknd,
    normalize_canonical_eq_step1 (step1_question_text q) mc ss ch ha1 hs hnd hc1 hch hck hknd]
  exact step1_idem q

/-- Witness for C8 at a concrete canonical question. -/
theorem C8_normalizer_idempotent_witness :
    normalize_question (normalize_question
        [("question_text", Json.str "Q"), ("choices", Json.obj [("A", Json.str "x"), ("B", Json.str "y")]),
         ("answer", Json.arr [Json.str "A"])] 4) 4
      = normalize_question
        [("question_text", Json.str "Q"), ("choices", Json.obj [("A", Json.str "x"), ("B", Json.str "y")]),
         ("answer", Json.arr [Json.str "A"])] 4 :=
  C8_normalizer_idempotent _ 4 ["A"] [("A", Json.str "x"), ("B", Json.str "y")]
    (by rfl) (by decide) (by decide) (by rfl) (List.cons_ne_nil _ _) (by decide) (by decide)

/-- The regex scan from position `i` produces exactly the standalone
uppercase letters at positions `i, i+1, ...`, provided the carried
previous character matches the left-boundary test at `i`. -/
theorem extract_letters_aux_eq (cs : List Char) :
    ∀ n i (prev : Option Char), cs.length - i = n → i ≤ cs.length →
    ((match prev with | none => true | some p => !isWordChar p)
      = (decide (i = 0) || !isWordChar (cs.getD (i - 1) ' '))) →
    extract_letters_aux prev (cs.drop i)
      = ((List.range' i (cs.length - i)).filter (standalone_at cs)).map
          (fun j => String.mk [cs.getD j ' ']) := by
  intro n
  induction n with
  | zero =>
    intro i prev hn hi hprev
    have hieq : i = cs.length := by omega
    subst hieq
    rw [List.drop_length, hn, List.range'_zero]
    cases prev <;> simp [extract_letters_aux]
  | succ n ih =>
    intro i prev hn hi hprev
    have hilt : i < cs.length := by omega
    have hgetD : cs.getD i ' ' = cs[i] := List.getD_eq_getElem cs ' ' hilt
    rw [List.drop_eq_getElem_cons hilt, hn, List.range'_succ, List.filter_cons]
    have hokR : (match cs.drop (i + 1) with | [] => true | d :: _ => !isWordChar d)
        = (decide (i + 1 = cs.length) || !isWordChar (cs.getD (i + 1) ' ')) := by
      rcases hd2 : cs.drop (i + 1) with _ | ⟨d, rest2⟩
      · have : cs.length ≤ i + 1 := by
          by_contra hlt
          rw [List.drop_eq_getElem_cons (by omega)] at hd2
          cases hd2
        have : i + 1 = cs.length := by omega
        simp [this]
      · have hlt2 : i + 1 < cs.length := by
          by_contra hge
          rw [List.drop_eq_nil_of_le (by omega)] at hd2
          cases hd2
        rw [List.drop_eq_getElem_cons hlt2] at hd2
        have hd : d = cs[i + 1] := by
          injection hd2 with h1 h2
          exact h1.symm
        rw [hd, List.getD_eq_getElem cs ' ' hlt2]
        have : decide (i + 1 = cs.length) = false := by
          simp
          omega
        rw [this, Bool.false_or]
    have hsa_eq : standalone_at cs i
        = (isUpperLatin cs[i] && (decide (i = 0) || !isWordChar (cs.getD (i - 1) ' '))
            && (decide (i + 1 = cs.length) || !isWordChar (cs.getD (i + 1) ' '))) := by
      unfold standalone_at
      rw [hgetD]
      have ht : decide (i < cs.length) = true := by simpa using hilt
      rw [ht, Bool.true_and]
    simp only [extract_letters_aux]
    rw [hprev, hokR, ← hsa_eq]
    have hih := ih (i + 1) (some cs[i]) (by omega) (by omega)
      (by
        have h11 : i + 1 - 1 = i := by omega
        rw [h11, hgetD]
        simp)
    have hlen : cs.length - (i + 1) = n := by omega
    rw [hlen] at hih
    cases hsa : standalone_at cs i with
    | false =>
      rw [if_neg (by simp [hsa]), if_neg (by simp [hsa])]
      exact hih
    | true =>
      rw [if_pos (by simp [hsa]), if_pos (by simp [hsa])]
      rw [List.map_cons, hgetD]
      exact congrArg _ hih

/-- C2 (amended): the Letter Extractor returns, in left-to-right
order, exactly the single uppercase Latin letters standing alone as
whole-word tokens; on the free text of the claim this includes the
standalone pronoun `I`, so the result is `["I","B","D"]`, not
`["B","D"]`. -/
theorem C2_letter_extractor_amended :
    (∀ s : String, extract_letters_from_string s = spec_letters s)
    ∧ extract_letters_from_string "I think B is right, not D" = ["I", "B", "D"] := by
  constructor
  · intro s
    unfold extract_letters_from_string spec_letters
    rw [List.range_eq_range']
    have h0 : s.toList.length - 0 = s.toList.length := by omega
    have := extract_letters_aux_eq s.toList s.toList.length 0 none h0 (by omega) (by simp)
    rw [List.drop_zero] at this
    rw [this, h0]
  · rfl
